import Mathlib

/-!
Verification of the message layer of the `vldm/playground` repository: the
`StorageValue` byte codec (`src/storage.rs`), the `Protocol` tagged union and
its payload structs (`src/messages/protocol.rs`), and the signed envelope.

Machine bytes are modelled as `Fin 256`; buffers as `List Byte`.  A Rust
function that can panic (assert failure, `unwrap` on a decode error, a
`byteorder` read of a too-short buffer) is modelled as returning `Option`,
with `none` standing for the halt.  Modules of the repository that are not
present under `src/` (`crypto`, `types`, `encoding`, `messages/mod.rs`) are
modelled from the specification; each such definition says so in its doc
comment.
-/

set_option linter.unusedVariables false

abbrev Byte := Fin 256

/-- Little-endian byte string of width `w` for a natural number, as
`byteorder::LittleEndian::write_uN` lays it out. -/
def leBytes : Nat → Nat → List Byte
  | 0, _ => []
  | w + 1, n => ⟨n % 256, Nat.mod_lt _ (by decide)⟩ :: leBytes w (n / 256)

/-- Little-endian read of a whole buffer, as `byteorder::LittleEndian::read_uN`
interprets its first bytes. -/
def fromLE : List Byte → Nat
  | [] => 0
  | b :: l => b.val + 256 * fromLE l

theorem leBytes_length (w n : Nat) : (leBytes w n).length = w := by
  induction w generalizing n with
  | zero => rfl
  | succ k ih => simp [leBytes, ih]

theorem fromLE_lt (l : List Byte) : fromLE l < 2 ^ (8 * l.length) := by
  induction l with
  | nil => simp [fromLE]
  | cons b t ih =>
    have hb := b.isLt
    simp only [fromLE, List.length_cons]
    have : 2 ^ (8 * (t.length + 1)) = 256 * 2 ^ (8 * t.length) := by
      rw [Nat.mul_add, Nat.pow_add]; ring
    omega

theorem fromLE_leBytes (w n : Nat) : fromLE (leBytes w n) = n % 2 ^ (8 * w) := by
  induction w generalizing n with
  | zero => simp [leBytes, fromLE, Nat.mod_one]
  | succ k ih =>
    simp only [leBytes, fromLE, ih]
    have h : 2 ^ (8 * (k + 1)) = 256 * 2 ^ (8 * k) := by
      rw [Nat.mul_add, Nat.pow_add]; ring
    rw [h]
    have h1 : n % (256 * 2 ^ (8 * k)) % 256 = n % 256 :=
      Nat.mod_mod_of_dvd n ⟨2 ^ (8 * k), rfl⟩
    have h2 : n % (256 * 2 ^ (8 * k)) / 256 = n / 256 % 2 ^ (8 * k) :=
      (Nat.mod_mul_right_div_self n 256 (2 ^ (8 * k)))
    have h3 := Nat.div_add_mod (n % (256 * 2 ^ (8 * k))) 256
    omega

theorem fromLE_leBytes_of_lt {w n : Nat} (h : n < 2 ^ (8 * w)) :
    fromLE (leBytes w n) = n := by
  rw [fromLE_leBytes, Nat.mod_eq_of_lt h]

/-- Machine integer value ranges, as subtypes of `Nat` / `Int`. -/
abbrev U16 := {n : Nat // n < 2 ^ 16}

abbrev U32 := {n : Nat // n < 2 ^ 32}

abbrev U64 := {n : Nat // n < 2 ^ 64}

abbrev I8 := {i : Int // -(2 ^ 7) ≤ i ∧ i < 2 ^ 7}

abbrev I16 := {i : Int // -(2 ^ 15) ≤ i ∧ i < 2 ^ 15}

abbrev I32 := {i : Int // -(2 ^ 31) ≤ i ∧ i < 2 ^ 31}

abbrev I64 := {i : Int // -(2 ^ 63) ≤ i ∧ i < 2 ^ 63}

/-- Two's-complement little-endian bytes of a signed integer of byte width
`w`, as `byteorder::LittleEndian::write_iN` lays it out. -/
def leBytesI (w : Nat) (i : Int) : List Byte :=
  leBytes w (i % (2 ^ (8 * w) : Nat)).toNat

/-- Two's-complement read of a buffer of byte width `w`, as
`byteorder::LittleEndian::read_iN` interprets its first bytes. -/
def fromLEI (w : Nat) (l : List Byte) : Int :=
  let n := fromLE l
  if n < 2 ^ (8 * w - 1) then (n : Int) else (n : Int) - 2 ^ (8 * w)

theorem twos_complement_roundtrip (w : Nat) (hw : 0 < w) (i : Int)
    (hlo : -(2 ^ (8 * w - 1)) ≤ i) (hhi : i < 2 ^ (8 * w - 1)) :
    fromLEI w (leBytesI w i) = i := by
  have hsplit : 8 * w - 1 + 1 = 8 * w := by omega
  have hPN : (((2 ^ (8 * w) : Nat)) : Int) = 2 * 2 ^ (8 * w - 1) := by
    rw [← hsplit]; push_cast [pow_succ]; ring
  have hcm : (((2 ^ (8 * w - 1) : Nat)) : Int) = 2 ^ (8 * w - 1) := by push_cast; ring
  have hII : (2 ^ (8 * w) : Int) = 2 * 2 ^ (8 * w - 1) := by
    rw [← hsplit, pow_succ, Nat.add_sub_cancel]; ring
  have hposm : (0 : Int) < 2 ^ (8 * w - 1) := by positivity
  have hmod_val : i % (((2 ^ (8 * w) : Nat)) : Int) =
      if 0 ≤ i then i else i + (((2 ^ (8 * w) : Nat)) : Int) := by
    rcases le_or_lt 0 i with hpos | hneg
    · rw [if_pos hpos]
      exact Int.emod_eq_of_lt hpos (by omega)
    · rw [if_neg (by omega)]
      have h1 : (i + (((2 ^ (8 * w) : Nat)) : Int) * 1) % (((2 ^ (8 * w) : Nat)) : Int) =
          i % (((2 ^ (8 * w) : Nat)) : Int) :=
        @Int.add_mul_emod_self_left i (((2 ^ (8 * w) : Nat)) : Int) 1
      rw [mul_one] at h1
      rw [← h1]
      exact Int.emod_eq_of_lt (by omega) (by omega)
  simp only [fromLEI, leBytesI]
  rw [hmod_val]
  rcases le_or_lt 0 i with hpos | hneg
  · have harg : (if 0 ≤ i then i else i + (((2 ^ (8 * w) : Nat)) : Int)) = i := if_pos hpos
    rw [harg]
    have hiN : i.toNat < (2 ^ (8 * w) : Nat) := by omega
    rw [fromLE_leBytes_of_lt hiN]
    have hlt : i.toNat < 2 ^ (8 * w - 1) := by omega
    rw [if_pos hlt]
    omega
  · have harg : (if 0 ≤ i then i else i + (((2 ^ (8 * w) : Nat)) : Int)) =
        i + (((2 ^ (8 * w) : Nat)) : Int) := if_neg (by omega)
    rw [harg]
    have hiN : (i + (((2 ^ (8 * w) : Nat)) : Int)).toNat < (2 ^ (8 * w) : Nat) := by omega
    rw [fromLE_leBytes_of_lt hiN]
    have hge : ¬ ((i + (((2 ^ (8 * w) : Nat)) : Int)).toNat < 2 ^ (8 * w - 1)) := by omega
    rw [if_neg hge]
    omega

/-- A 32-byte hash value.  Modelled from the spec: the `crypto` module is not
under `src/`; `Hash` is a fixed-width opaque byte value (32 bytes, SHA-256
width). -/
structure Hash where
  data : {l : List Byte // l.length = 32}
deriving DecidableEq

/-- A 32-byte Ed25519 public key.  Modelled from the spec: the `crypto` module
is not under `src/`; `PublicKey` is a fixed-width opaque byte value. -/
structure PublicKey where
  data : {l : List Byte // l.length = 32}
deriving DecidableEq

/-- A 64-byte Ed25519 signature.  Modelled from the spec: the `crypto` module
is not under `src/`; `Signature` is a fixed-width opaque byte value. -/
structure Signature where
  data : {l : List Byte // l.length = 64}
deriving DecidableEq

/-- UTF-8 validity of raw bytes, as `String::from_utf8` checks it
(RFC 3629: no overlong forms, no surrogates, nothing above U+10FFFF). -/
def validUtf8 : List Byte → Bool
  | [] => true
  | b :: rest =>
    if b.val < 0x80 then validUtf8 rest
    else if b.val < 0xC2 then false
    else if b.val < 0xE0 then
      match rest with
      | c :: rest2 => decide (0x80 ≤ c.val ∧ c.val < 0xC0) && validUtf8 rest2
      | [] => false
    else if b.val < 0xF0 then
      match rest with
      | c1 :: c2 :: rest2 =>
        (decide ((if b.val = 0xE0 then 0xA0 else 0x80) ≤ c1.val) &&
         decide (c1.val < (if b.val = 0xED then 0xA0 else 0xC0)) &&
         decide (0x80 ≤ c2.val ∧ c2.val < 0xC0)) && validUtf8 rest2
      | _ => false
    else if b.val < 0xF5 then
      match rest with
      | c1 :: c2 :: c3 :: rest2 =>
        (decide ((if b.val = 0xF0 then 0x90 else 0x80) ≤ c1.val) &&
         decide (c1.val < (if b.val = 0xF4 then 0x90 else 0xC0)) &&
         decide (0x80 ≤ c2.val ∧ c2.val < 0xC0) &&
         decide (0x80 ≤ c3.val ∧ c3.val < 0xC0)) && validUtf8 rest2
      | _ => false
    else false

/-- A Rust `String`: raw bytes that satisfy the UTF-8 invariant. -/
abbrev RustString := {l : List Byte // validUtf8 l = true}

/-- A chrono `DateTime<Utc>` value: signed 64-bit whole seconds since the
Unix epoch plus the 32-bit nanosecond remainder. -/
structure DateTimeUtc where
  secs : I64
  nanos : U32
deriving DecidableEq

/-- The consensus round counter.  `src/storage.rs` shows `Round` is a tuple
struct over `u32` (`Round(u32::from_bytes(value))`). -/
structure Round where
  val : U32
deriving DecidableEq

/-- A 128-bit identifier (`uuid::Uuid`): 16 raw bytes. -/
structure Uuid where
  data : {l : List Byte // l.length = 16}
deriving DecidableEq

/-- A fixed-precision decimal (`rust_decimal::Decimal`).  Modelled from the
spec: a 16-byte implementation-defined representation, treated as opaque but
total/invertible. -/
structure Decimal where
  repr : {l : List Byte // l.length = 16}
deriving DecidableEq

theorem fromLE_take_lt (w : Nat) (l : List Byte) (h : w ≤ l.length) :
    fromLE (l.take w) < 2 ^ (8 * w) := by
  have hlt := fromLE_lt (l.take w)
  rw [List.length_take, Nat.min_eq_left h] at hlt
  exact hlt

theorem fromLEI_bounds (w : Nat) (hw : 0 < w) (l : List Byte)
    (h : fromLE l < 2 ^ (8 * w)) :
    -(2 ^ (8 * w - 1)) ≤ fromLEI w l ∧ fromLEI w l < 2 ^ (8 * w - 1) := by
  have hsplit : 8 * w - 1 + 1 = 8 * w := by omega
  have hII : (2 ^ (8 * w) : Int) = 2 * 2 ^ (8 * w - 1) := by
    rw [← hsplit, pow_succ, Nat.add_sub_cancel]; ring
  have hcm : (((2 ^ (8 * w - 1) : Nat)) : Int) = 2 ^ (8 * w - 1) := by push_cast; ring
  have hcw : (((2 ^ (8 * w) : Nat)) : Int) = 2 ^ (8 * w) := by push_cast; ring
  have hposm : (0 : Int) < 2 ^ (8 * w - 1) := by positivity
  simp only [fromLEI]
  split <;> constructor <;> omega

theorem take_leBytes (w n : Nat) : (leBytes w n).take w = leBytes w n :=
  List.take_of_length_le (by rw [leBytes_length])

/-!
The `StorageValue` codec of `src/storage.rs`.  `into_bytes` is the
serializer; `from_bytes` is the deserializer, with `none` standing for a
panic (a failed `assert`, a failed `unwrap`, or a `byteorder` read of a
buffer shorter than the integer width).
-/

/-- `StorageValue for ()`: no-op implementation. -/
def unitIntoBytes (_ : Unit) : List Byte := []

def unitFromBytes (_ : List Byte) : Option Unit := some ()

/-- `StorageValue for bool`: `vec![self as u8]`. -/
def boolIntoBytes (b : Bool) : List Byte := [if b then 1 else 0]

/-- `StorageValue for bool`: asserts length 1, maps 0 to `false`, 1 to
`true`, and panics on any other byte. -/
def boolFromBytes (l : List Byte) : Option Bool :=
  match l with
  | [b] => if b.val = 0 then some false else if b.val = 1 then some true else none
  | _ => none

/-- `StorageValue for u8`: `vec![self]`. -/
def u8IntoBytes (n : Byte) : List Byte := [n]

/-- `StorageValue for u8`: asserts length 1, returns the byte. -/
def u8FromBytes (l : List Byte) : Option Byte :=
  match l with
  | [b] => some b
  | _ => none

/-- `StorageValue for i8`: `vec![self as u8]` (two's complement byte). -/
def i8IntoBytes (i : I8) : List Byte := leBytesI 1 i.val

/-- `StorageValue for i8`: asserts length 1, reinterprets the byte. -/
def i8FromBytes (l : List Byte) : Option I8 :=
  match l with
  | [b] => some ⟨fromLEI 1 [b], by
      have hb := b.isLt
      exact fromLEI_bounds 1 (by decide) [b]
        (by have hb2 := b.isLt; simp only [fromLE]; omega)⟩
  | _ => none

/-- `StorageValue for u16`: `LittleEndian::write_u16` into a 2-byte vector. -/
def u16IntoBytes (n : U16) : List Byte := leBytes 2 n.val

/-- `StorageValue for u16`: `LittleEndian::read_u16` of the buffer — panics
below 2 bytes, reads the first 2 bytes otherwise. -/
def u16FromBytes (l : List Byte) : Option U16 :=
  if h : 2 ≤ l.length then
    some ⟨fromLE (l.take 2), by
      exact fromLE_take_lt 2 l h⟩
  else none

/-- `StorageValue for u32`: `LittleEndian::write_u32` into a 4-byte vector. -/
def u32IntoBytes (n : U32) : List Byte := leBytes 4 n.val

/-- `StorageValue for u32`: `LittleEndian::read_u32` of the buffer. -/
def u32FromBytes (l : List Byte) : Option U32 :=
  if h : 4 ≤ l.length then
    some ⟨fromLE (l.take 4), by
      exact fromLE_take_lt 4 l h⟩
  else none

/-- `StorageValue for u64`: `LittleEndian::write_u64` into an 8-byte vector. -/
def u64IntoBytes (n : U64) : List Byte := leBytes 8 n.val

/-- `StorageValue for u64`: `LittleEndian::read_u64` of the buffer. -/
def u64FromBytes (l : List Byte) : Option U64 :=
  if h : 8 ≤ l.length then
    some ⟨fromLE (l.take 8), by
      exact fromLE_take_lt 8 l h⟩
  else none

/-- `StorageValue for i16`: `LittleEndian::write_i16` into a 2-byte vector. -/
def i16IntoBytes (i : I16) : List Byte := leBytesI 2 i.val

/-- `StorageValue for i16`: `LittleEndian::read_i16` of the buffer. -/
def i16FromBytes (l : List Byte) : Option I16 :=
  if h : 2 ≤ l.length then
    some ⟨fromLEI 2 (l.take 2), by
      exact fromLEI_bounds 2 (by decide) (l.take 2) (fromLE_take_lt 2 l h)⟩
  else none

/-- `StorageValue for i32`: `LittleEndian::write_i32` into a 4-byte vector. -/
def i32IntoBytes (i : I32) : List Byte := leBytesI 4 i.val

/-- `StorageValue for i32`: `LittleEndian::read_i32` of the buffer. -/
def i32FromBytes (l : List Byte) : Option I32 :=
  if h : 4 ≤ l.length then
    some ⟨fromLEI 4 (l.take 4), by
      exact fromLEI_bounds 4 (by decide) (l.take 4) (fromLE_take_lt 4 l h)⟩
  else none

/-- `StorageValue for i64`: `LittleEndian::write_i64` into an 8-byte vector. -/
def i64IntoBytes (i : I64) : List Byte := leBytesI 8 i.val

/-- `StorageValue for i64`: `LittleEndian::read_i64` of the buffer. -/
def i64FromBytes (l : List Byte) : Option I64 :=
  if h : 8 ≤ l.length then
    some ⟨fromLEI 8 (l.take 8), by
      exact fromLEI_bounds 8 (by decide) (l.take 8) (fromLE_take_lt 8 l h)⟩
  else none

/-- `StorageValue for Hash`: `self.as_ref().to_vec()` — the raw 32 bytes. -/
def hashIntoBytes (h : Hash) : List Byte := h.data.val

/-- `StorageValue for Hash`: `Hash::from_slice(value).unwrap()` — panics
unless the buffer is exactly 32 bytes. -/
def hashFromBytes (l : List Byte) : Option Hash :=
  if h : l.length = 32 then some ⟨⟨l, h⟩⟩ else none

/-- `StorageValue for PublicKey`: the raw 32 bytes. -/
def pkIntoBytes (k : PublicKey) : List Byte := k.data.val

/-- `StorageValue for PublicKey`: `PublicKey::from_slice(value).unwrap()`. -/
def pkFromBytes (l : List Byte) : Option PublicKey :=
  if h : l.length = 32 then some ⟨⟨l, h⟩⟩ else none

/-- `StorageValue for Vec<u8>`: raw passthrough. -/
def bytesIntoBytes (l : List Byte) : List Byte := l

def bytesFromBytes (l : List Byte) : Option (List Byte) := some l

/-- `StorageValue for String`: `String::into_bytes` — the raw UTF-8 bytes. -/
def stringIntoBytes (s : RustString) : List Byte := s.val

/-- `StorageValue for String`: `String::from_utf8(value).unwrap()` — panics
on invalid UTF-8. -/
def stringFromBytes (l : List Byte) : Option RustString :=
  if h : validUtf8 l = true then some ⟨l, h⟩ else none

/-- `StorageValue for DateTime<Utc>`: 8-byte little-endian signed seconds
followed by 4-byte little-endian nanoseconds. -/
def dateTimeIntoBytes (t : DateTimeUtc) : List Byte :=
  leBytesI 8 t.secs.val ++ leBytes 4 t.nanos.val

/-- `StorageValue for DateTime<Utc>`: reads `value[0..8]` as i64 LE and
`value[8..12]` as u32 LE — panics if the buffer is shorter than 12 bytes. -/
def dateTimeFromBytes (l : List Byte) : Option DateTimeUtc :=
  if h : 12 ≤ l.length then
    some ⟨⟨fromLEI 8 (l.take 8), by
        exact fromLEI_bounds 8 (by decide) (l.take 8) (fromLE_take_lt 8 l (by omega))⟩,
      ⟨fromLE ((l.drop 8).take 4), by
        have hlen : (4 : Nat) ≤ (l.drop 8).length := by
          rw [List.length_drop]; omega
        exact fromLE_take_lt 4 (l.drop 8) hlen⟩⟩
  else none

/-- `StorageValue for Round`: delegates to the `u32` codec on the wrapped
counter (`self.0.into_bytes()`). -/
def roundIntoBytes (r : Round) : List Byte := u32IntoBytes r.val

/-- `StorageValue for Round`: `Round(u32::from_bytes(value))`. -/
def roundFromBytes (l : List Byte) : Option Round :=
  (u32FromBytes l).map Round.mk

/-- `StorageValue for Uuid`: `self.as_bytes().to_vec()` — the raw 16 bytes. -/
def uuidIntoBytes (u : Uuid) : List Byte := u.data.val

/-- `StorageValue for Uuid`: `Uuid::from_bytes(&value).unwrap()` — panics
unless the buffer is exactly 16 bytes. -/
def uuidFromBytes (l : List Byte) : Option Uuid :=
  if h : l.length = 16 then some ⟨⟨l, h⟩⟩ else none

/-- `StorageValue for Decimal`: `self.serialize().to_vec()` — the 16-byte
representation. -/
def decimalIntoBytes (d : Decimal) : List Byte := d.repr.val

/-- `StorageValue for Decimal`: `copy_from_slice` into a 16-byte array then
`deserialize` — panics unless the buffer is exactly 16 bytes. -/
def decimalFromBytes (l : List Byte) : Option Decimal :=
  if h : l.length = 16 then some ⟨⟨l, h⟩⟩ else none

theorem leBytesI_length (w : Nat) (i : Int) : (leBytesI w i).length = w :=
  leBytes_length _ _

theorem take_leBytesI (w : Nat) (i : Int) : (leBytesI w i).take w = leBytesI w i :=
  List.take_of_length_le (by rw [leBytesI_length])

theorem u16_rt (n : U16) : u16FromBytes (u16IntoBytes n) = some n := by
  simp only [u16FromBytes, u16IntoBytes]
  rw [dif_pos (by simp [leBytes_length])]
  apply congrArg some
  apply Subtype.ext
  show fromLE ((leBytes 2 n.val).take 2) = n.val
  rw [take_leBytes]
  exact fromLE_leBytes_of_lt n.prop

theorem u32_rt (n : U32) : u32FromBytes (u32IntoBytes n) = some n := by
  simp only [u32FromBytes, u32IntoBytes]
  rw [dif_pos (by simp [leBytes_length])]
  apply congrArg some
  apply Subtype.ext
  show fromLE ((leBytes 4 n.val).take 4) = n.val
  rw [take_leBytes]
  exact fromLE_leBytes_of_lt n.prop

theorem u64_rt (n : U64) : u64FromBytes (u64IntoBytes n) = some n := by
  simp only [u64FromBytes, u64IntoBytes]
  rw [dif_pos (by simp [leBytes_length])]
  apply congrArg some
  apply Subtype.ext
  show fromLE ((leBytes 8 n.val).take 8) = n.val
  rw [take_leBytes]
  exact fromLE_leBytes_of_lt n.prop

theorem i8_rt (i : I8) : i8FromBytes (i8IntoBytes i) = some i := by
  obtain ⟨b, hb⟩ : ∃ b, leBytesI 1 i.val = [b] := by
    have hlen := leBytesI_length 1 i.val
    rcases hL : leBytesI 1 i.val with _ | ⟨b, t⟩
    · rw [hL] at hlen; simp at hlen
    · rcases t with _ | ⟨c, t2⟩
      · exact ⟨b, rfl⟩
      · rw [hL] at hlen; simp at hlen
  simp only [i8IntoBytes, hb, i8FromBytes]
  apply congrArg some
  apply Subtype.ext
  show fromLEI 1 [b] = i.val
  rw [← hb]
  exact twos_complement_roundtrip 1 (by decide) i.val i.prop.1 i.prop.2

theorem i16_rt (i : I16) : i16FromBytes (i16IntoBytes i) = some i := by
  simp only [i16FromBytes, i16IntoBytes]
  rw [dif_pos (by simp [leBytesI_length])]
  apply congrArg some
  apply Subtype.ext
  show fromLEI 2 ((leBytesI 2 i.val).take 2) = i.val
  rw [take_leBytesI]
  exact twos_complement_roundtrip 2 (by decide) i.val i.prop.1 i.prop.2

theorem i32_rt (i : I32) : i32FromBytes (i32IntoBytes i) = some i := by
  simp only [i32FromBytes, i32IntoBytes]
  rw [dif_pos (by simp [leBytesI_length])]
  apply congrArg some
  apply Subtype.ext
  show fromLEI 4 ((leBytesI 4 i.val).take 4) = i.val
  rw [take_leBytesI]
  exact twos_complement_roundtrip 4 (by decide) i.val i.prop.1 i.prop.2

theorem i64_rt (i : I64) : i64FromBytes (i64IntoBytes i) = some i := by
  have key : ∀ l : List Byte, l = leBytesI 8 i.val → i64FromBytes l = some i := by
    intro l hl
    have hlen : l.length = 8 := by rw [hl]; exact leBytesI_length 8 i.val
    simp only [i64FromBytes]
    rw [dif_pos (by omega)]
    apply congrArg some
    apply Subtype.ext
    show fromLEI 8 (l.take 8) = i.val
    rw [List.take_of_length_le (by omega), hl]
    exact twos_complement_roundtrip 8 (by decide) i.val i.prop.1 i.prop.2
  exact key _ rfl

theorem hash_rt (h : Hash) : hashFromBytes (hashIntoBytes h) = some h := by
  obtain ⟨⟨l, hl⟩⟩ := h
  simp [hashFromBytes, hashIntoBytes, hl]

theorem pk_rt (k : PublicKey) : pkFromBytes (pkIntoBytes k) = some k := by
  obtain ⟨⟨l, hl⟩⟩ := k
  simp [pkFromBytes, pkIntoBytes, hl]

theorem string_rt (s : RustString) : stringFromBytes (stringIntoBytes s) = some s := by
  obtain ⟨l, hl⟩ := s
  simp [stringFromBytes, stringIntoBytes, hl]

theorem dateTime_rt (t : DateTimeUtc) : dateTimeFromBytes (dateTimeIntoBytes t) = some t := by
  obtain ⟨⟨s, hs⟩, ⟨n, hn⟩⟩ := t
  simp only [dateTimeIntoBytes, dateTimeFromBytes]
  rw [dif_pos (by simp [leBytesI_length, leBytes_length])]
  have htake : (leBytesI 8 s ++ leBytes 4 n).take 8 = leBytesI 8 s :=
    List.take_left' (leBytesI_length 8 s)
  have hdrop : (leBytesI 8 s ++ leBytes 4 n).drop 8 = leBytes 4 n :=
    List.drop_left' (leBytesI_length 8 s)
  apply congrArg some
  simp only [htake, hdrop, DateTimeUtc.mk.injEq, Subtype.mk.injEq]
  constructor
  · exact twos_complement_roundtrip 8 (by decide) s hs.1 hs.2
  · rw [take_leBytes]
    exact fromLE_leBytes_of_lt hn

theorem round_rt (r : Round) : roundFromBytes (roundIntoBytes r) = some r := by
  obtain ⟨v⟩ := r
  simp [roundFromBytes, roundIntoBytes, u32_rt v]

theorem uuid_rt (u : Uuid) : uuidFromBytes (uuidIntoBytes u) = some u := by
  obtain ⟨⟨l, hl⟩⟩ := u
  simp [uuidFromBytes, uuidIntoBytes, hl]

theorem decimal_rt (d : Decimal) : decimalFromBytes (decimalIntoBytes d) = some d := by
  obtain ⟨⟨l, hl⟩⟩ := d
  simp [decimalFromBytes, decimalIntoBytes, hl]

/-- C1: for every supported `StorageValue` type and every valid value `x`,
`from_bytes (into_bytes x) = x`; `into_bytes` is a Lean function, hence
total and deterministic by construction. -/
theorem storage_roundtrip_all :
    (∀ u : Unit, unitFromBytes (unitIntoBytes u) = some u) ∧
    (∀ b : Bool, boolFromBytes (boolIntoBytes b) = some b) ∧
    (∀ n : Byte, u8FromBytes (u8IntoBytes n) = some n) ∧
    (∀ i : I8, i8FromBytes (i8IntoBytes i) = some i) ∧
    (∀ n : U16, u16FromBytes (u16IntoBytes n) = some n) ∧
    (∀ i : I16, i16FromBytes (i16IntoBytes i) = some i) ∧
    (∀ n : U32, u32FromBytes (u32IntoBytes n) = some n) ∧
    (∀ i : I32, i32FromBytes (i32IntoBytes i) = some i) ∧
    (∀ n : U64, u64FromBytes (u64IntoBytes n) = some n) ∧
    (∀ i : I64, i64FromBytes (i64IntoBytes i) = some i) ∧
    (∀ h : Hash, hashFromBytes (hashIntoBytes h) = some h) ∧
    (∀ k : PublicKey, pkFromBytes (pkIntoBytes k) = some k) ∧
    (∀ l : List Byte, bytesFromBytes (bytesIntoBytes l) = some l) ∧
    (∀ s : RustString, stringFromBytes (stringIntoBytes s) = some s) ∧
    (∀ t : DateTimeUtc, dateTimeFromBytes (dateTimeIntoBytes t) = some t) ∧
    (∀ r : Round, roundFromBytes (roundIntoBytes r) = some r) ∧
    (∀ u : Uuid, uuidFromBytes (uuidIntoBytes u) = some u) ∧
    (∀ d : Decimal, decimalFromBytes (decimalIntoBytes d) = some d) :=
  ⟨fun _ => rfl, fun b => by cases b <;> decide, fun n => rfl, i8_rt, u16_rt, i16_rt,
   u32_rt, i32_rt, u64_rt, i64_rt, hash_rt, pk_rt, fun l => rfl, string_rt,
   dateTime_rt, round_rt, uuid_rt, decimal_rt⟩

/-- C5: the bool codec writes `false` as byte 0 and `true` as byte 1;
decoding `[0]`/`[1]` returns `false`/`true`, and any other byte or any
length other than 1 is a fatal decode error (`none` models the panic). -/
theorem bool_codec_spec :
    boolIntoBytes false = [(0 : Byte)] ∧ boolIntoBytes true = [(1 : Byte)] ∧
    boolFromBytes [(0 : Byte)] = some false ∧
    boolFromBytes [(1 : Byte)] = some true ∧
    (∀ b : Byte, 2 ≤ b.val → boolFromBytes [b] = none) ∧
    (∀ l : List Byte, l.length ≠ 1 → boolFromBytes l = none) := by
  refine ⟨by decide, by decide, by decide, by decide, ?_, ?_⟩
  · intro b hb
    simp only [boolFromBytes]
    rw [if_neg (by omega), if_neg (by omega)]
  · intro l hl
    match l with
    | [] => rfl
    | [b] => simp at hl
    | b :: c :: t => rfl

theorem bool_codec_spec_witness :
    boolFromBytes [(7 : Byte)] = none ∧ boolFromBytes [] = none ∧
    boolFromBytes [(0 : Byte), (0 : Byte)] = none :=
  ⟨bool_codec_spec.2.2.2.2.1 7 (by decide),
   bool_codec_spec.2.2.2.2.2 [] (by decide),
   bool_codec_spec.2.2.2.2.2 [0, 0] (by decide)⟩

/-- C6: the timestamp encoding is exactly 12 bytes — bytes 0..8 are the
little-endian two's-complement seconds, bytes 8..12 the little-endian
nanoseconds — and decoding reads back the same layout. -/
theorem datetime_layout (t : DateTimeUtc) :
    (dateTimeIntoBytes t).length = 12 ∧
    (dateTimeIntoBytes t).take 8 = leBytesI 8 t.secs.val ∧
    (dateTimeIntoBytes t).drop 8 = leBytes 4 t.nanos.val ∧
    dateTimeFromBytes (dateTimeIntoBytes t) = some t := by
  refine ⟨?_, ?_, ?_, dateTime_rt t⟩
  · simp [dateTimeIntoBytes, leBytesI_length, leBytes_length]
  · simp only [dateTimeIntoBytes]
    exact List.take_left' (leBytesI_length 8 _)
  · simp only [dateTimeIntoBytes]
    exact List.drop_left' (leBytesI_length 8 _)

/-- C7: the `Round` codec delegates to the `u32` codec on the wrapped
counter in both directions, producing 4 bytes, and round-trips. -/
theorem round_delegates_u32 :
    (∀ r : Round, roundIntoBytes r = u32IntoBytes r.val) ∧
    (∀ r : Round, (roundIntoBytes r).length = 4) ∧
    (∀ l : List Byte, roundFromBytes l = (u32FromBytes l).map Round.mk) ∧
    (∀ r : Round, roundFromBytes (roundIntoBytes r) = some r) :=
  ⟨fun r => rfl, fun r => leBytes_length 4 _, fun l => rfl, round_rt⟩

/-- C8: `Hash` and `PublicKey` encode as their raw fixed-width (32-byte)
bytes; a 32-byte input decodes and re-encodes to itself, and any other
length is a fatal decode error (`none` models the `unwrap` panic). -/
theorem fixed_width_codec_spec :
    (∀ h : Hash, (hashIntoBytes h).length = 32 ∧
      hashFromBytes (hashIntoBytes h) = some h) ∧
    (∀ l : List Byte, l.length = 32 →
      ∃ h : Hash, hashFromBytes l = some h ∧ hashIntoBytes h = l) ∧
    (∀ l : List Byte, l.length ≠ 32 → hashFromBytes l = none) ∧
    (∀ k : PublicKey, (pkIntoBytes k).length = 32 ∧
      pkFromBytes (pkIntoBytes k) = some k) ∧
    (∀ l : List Byte, l.length = 32 →
      ∃ k : PublicKey, pkFromBytes l = some k ∧ pkIntoBytes k = l) ∧
    (∀ l : List Byte, l.length ≠ 32 → pkFromBytes l = none) := by
  refine ⟨fun h => ⟨h.data.prop, hash_rt h⟩, ?_, ?_, fun k => ⟨k.data.prop, pk_rt k⟩, ?_, ?_⟩
  · intro l hl
    exact ⟨⟨⟨l, hl⟩⟩, by simp [hashFromBytes, hl], rfl⟩
  · intro l hl
    simp [hashFromBytes, hl]
  · intro l hl
    exact ⟨⟨⟨l, hl⟩⟩, by simp [pkFromBytes, hl], rfl⟩
  · intro l hl
    simp [pkFromBytes, hl]

theorem fixed_width_codec_spec_witness :
    hashFromBytes (List.replicate 33 (0 : Byte)) = none ∧
    pkFromBytes (List.replicate 31 (0 : Byte)) = none ∧
    (∃ h : Hash, hashFromBytes (List.replicate 32 (0 : Byte)) = some h ∧
      hashIntoBytes h = List.replicate 32 (0 : Byte)) :=
  ⟨fixed_width_codec_spec.2.2.1 _ (by decide),
   fixed_width_codec_spec.2.2.2.2.2 _ (by decide),
   fixed_width_codec_spec.2.1 _ (by decide)⟩

/-- C10: the multi-byte integer decoders panic (`none`) on buffers shorter
than the type width, and on longer buffers read only the leading width
bytes; the one-byte codecs (bool, u8, i8) insist on length exactly 1. -/
theorem multibyte_length_behavior :
    (∀ l : List Byte, l.length < 2 → u16FromBytes l = none) ∧
    (∀ l : List Byte, 2 ≤ l.length → u16FromBytes l = u16FromBytes (l.take 2)) ∧
    (∀ l : List Byte, l.length < 4 → u32FromBytes l = none) ∧
    (∀ l : List Byte, 4 ≤ l.length → u32FromBytes l = u32FromBytes (l.take 4)) ∧
    (∀ l : List Byte, l.length < 8 → u64FromBytes l = none) ∧
    (∀ l : List Byte, 8 ≤ l.length → u64FromBytes l = u64FromBytes (l.take 8)) ∧
    (∀ l : List Byte, l.length < 2 → i16FromBytes l = none) ∧
    (∀ l : List Byte, 2 ≤ l.length → i16FromBytes l = i16FromBytes (l.take 2)) ∧
    (∀ l : List Byte, l.length < 4 → i32FromBytes l = none) ∧
    (∀ l : List Byte, 4 ≤ l.length → i32FromBytes l = i32FromBytes (l.take 4)) ∧
    (∀ l : List Byte, l.length < 8 → i64FromBytes l = none) ∧
    (∀ l : List Byte, 8 ≤ l.length → i64FromBytes l = i64FromBytes (l.take 8)) ∧
    (∀ l : List Byte, l.length ≠ 1 → boolFromBytes l = none) ∧
    (∀ l : List Byte, l.length ≠ 1 → u8FromBytes l = none) ∧
    (∀ l : List Byte, l.length ≠ 1 → i8FromBytes l = none) := by
  refine ⟨?_, ?_, ?_, ?_, ?_, ?_, ?_, ?_, ?_, ?_, ?_, ?_, ?_, ?_, ?_⟩
  · intro l h; simp only [u16FromBytes]; rw [dif_neg (by omega)]
  · intro l h
    simp only [u16FromBytes]
    rw [dif_pos h, dif_pos (by rw [List.length_take]; omega)]
    apply congrArg some
    apply Subtype.ext
    show fromLE (l.take 2) = fromLE ((l.take 2).take 2)
    simp [List.take_take]
  · intro l h; simp only [u32FromBytes]; rw [dif_neg (by omega)]
  · intro l h
    simp only [u32FromBytes]
    rw [dif_pos h, dif_pos (by rw [List.length_take]; omega)]
    apply congrArg some
    apply Subtype.ext
    show fromLE (l.take 4) = fromLE ((l.take 4).take 4)
    simp [List.take_take]
  · intro l h; simp only [u64FromBytes]; rw [dif_neg (by omega)]
  · intro l h
    simp only [u64FromBytes]
    rw [dif_pos h, dif_pos (by rw [List.length_take]; omega)]
    apply congrArg some
    apply Subtype.ext
    show fromLE (l.take 8) = fromLE ((l.take 8).take 8)
    simp [List.take_take]
  · intro l h; simp only [i16FromBytes]; rw [dif_neg (by omega)]
  · intro l h
    simp only [i16FromBytes]
    rw [dif_pos h, dif_pos (by rw [List.length_take]; omega)]
    apply congrArg some
    apply Subtype.ext
    show fromLEI 2 (l.take 2) = fromLEI 2 ((l.take 2).take 2)
    simp [List.take_take]
  · intro l h; simp only [i32FromBytes]; rw [dif_neg (by omega)]
  · intro l h
    simp only [i32FromBytes]
    rw [dif_pos h, dif_pos (by rw [List.length_take]; omega)]
    apply congrArg some
    apply Subtype.ext
    show fromLEI 4 (l.take 4) = fromLEI 4 ((l.take 4).take 4)
    simp [List.take_take]
  · intro l h; simp only [i64FromBytes]; rw [dif_neg (by omega)]
  · intro l h
    simp only [i64FromBytes]
    rw [dif_pos h, dif_pos (by rw [List.length_take]; omega)]
    apply congrArg some
    apply Subtype.ext
    show fromLEI 8 (l.take 8) = fromLEI 8 ((l.take 8).take 8)
    simp [List.take_take]
  · intro l hl
    match l with
    | [] => rfl
    | [b] => simp at hl
    | b :: c :: t => rfl
  · intro l hl
    match l with
    | [] => rfl
    | [b] => simp at hl
    | b :: c :: t => rfl
  · intro l hl
    match l with
    | [] => rfl
    | [b] => simp at hl
    | b :: c :: t => rfl

theorem multibyte_length_behavior_witness :
    u16FromBytes [(9 : Byte)] = none ∧
    u64FromBytes (List.replicate 9 (0 : Byte)) =
      u64FromBytes ((List.replicate 9 (0 : Byte)).take 8) ∧
    u8FromBytes [] = none := by
  obtain ⟨h1, h2, h3, h4, h5, h6, rest⟩ := multibyte_length_behavior
  exact ⟨h1 _ (by decide), h6 _ (by decide), rest.2.2.2.2.2.2.2.1 [] (by decide)⟩

/-!
The `Protocol` tagged union and its payload structs, from
`src/messages/protocol.rs`.  `ValidatorId` and `Height` are modelled from the
spec (the `types` module is not under `src/`): opaque non-negative counters,
`u16`- and `u64`-backed in Exonum.  `RawTransaction` and `SignedMessage` are
modelled from the spec (the `messages` module root is not under `src/`).
-/

abbrev ValidatorId := U16

abbrev Height := U64

/-- A raw transaction payload.  Modelled from the spec: opaque signed
transaction bytes carried by the `Transaction` variant. -/
abbrev RawTransaction := List Byte

/-- A network socket address.  Modelled from the spec: the field-layout
collaborator is excluded, so this keeps only the semantic content (v4 or v6
address plus port). -/
inductive SocketAddr
  | v4 (ip : {l : List Byte // l.length = 4}) (port : U16)
  | v6 (ip : {l : List Byte // l.length = 16}) (port : U16)
deriving DecidableEq

/-- A signed-message envelope.  Modelled from the spec: raw payload bytes
(the exact bytes that were signed) plus author public key plus signature. -/
structure SignedMessage where
  payload : List Byte
  author : PublicKey
  signature : Signature
deriving DecidableEq

/-- The Exonum block header (`encoding_struct! Block`). -/
structure Block where
  schema_version : U16
  proposer_id : ValidatorId
  height : Height
  tx_count : U32
  prev_hash : Hash
  tx_hash : Hash
  state_hash : Hash
deriving DecidableEq

/-- `Connect` message: node address, creation time, user agent. -/
structure Connect where
  addr : SocketAddr
  time : DateTimeUtc
  user_agent : RustString
deriving DecidableEq

/-- `Status` message: current height and last committed block hash. -/
structure Status where
  height : Height
  last_hash : Hash
deriving DecidableEq

/-- `WithoutEncodingStatus`: the plain-struct transitional encoding of
`Status`. -/
structure WithoutEncodingStatus where
  height : Height
  last_hash : Hash
deriving DecidableEq

/-- `Propose` message. -/
structure Propose where
  validator : ValidatorId
  height : Height
  round : Round
  prev_hash : Hash
  transactions : List Hash
deriving DecidableEq

/-- `Prevote` message. -/
structure Prevote where
  validator : ValidatorId
  height : Height
  round : Round
  propose_hash : Hash
  locked_round : Round
deriving DecidableEq

/-- `Precommit` message. -/
structure Precommit where
  validator : ValidatorId
  height : Height
  round : Round
  propose_hash : Hash
  block_hash : Hash
  time : DateTimeUtc
deriving DecidableEq

/-- `BlockResponse` message. -/
structure BlockResponse where
  «to» : PublicKey
  block : Block
  precommits : List SignedMessage
  transactions : List Hash
deriving DecidableEq

/-- `TransactionsResponse` message. -/
structure TransactionsResponse where
  «to» : PublicKey
  transactions : List SignedMessage
deriving DecidableEq

/-- `ProposeRequest` message. -/
structure ProposeRequest where
  «to» : PublicKey
  height : Height
  propose_hash : Hash
deriving DecidableEq

/-- `TransactionsRequest` message. -/
structure TransactionsRequest where
  «to» : PublicKey
  txs : List Hash
deriving DecidableEq

/-- `PrevotesRequest` message. -/
structure PrevotesRequest where
  «to» : PublicKey
  height : Height
  round : Round
  propose_hash : Hash
  validators : List Bool
deriving DecidableEq

/-- `PeersRequest` message. -/
structure PeersRequest where
  «to» : PublicKey
deriving DecidableEq

/-- `BlockRequest` message. -/
structure BlockRequest where
  «to» : PublicKey
  height : Height
deriving DecidableEq

/-- Consensus message: `Propose`, `Prevote` or `Precommit`. -/
inductive ConsensusMessage
  | propose (m : Propose)
  | prevote (m : Prevote)
  | precommit (m : Precommit)
deriving DecidableEq

/-- A request for some data. -/
inductive RequestMessage
  | propose (m : ProposeRequest)
  | transactions (m : TransactionsRequest)
  | prevotes (m : PrevotesRequest)
  | peers (m : PeersRequest)
  | block (m : BlockRequest)
deriving DecidableEq

/-- Any possible message (`enum Protocol`), variants in declaration order. -/
inductive Protocol
  | transaction (t : RawTransaction)
  | connect (c : Connect)
  | status (s : Status)
  | withoutEncodingStatus (s : WithoutEncodingStatus)
  | block (b : BlockResponse)
  | consensus (c : ConsensusMessage)
  | request (r : RequestMessage)
  | transactionsBatch (t : TransactionsResponse)
deriving DecidableEq

/-- `ConsensusMessage::validator()`: dispatch to the wrapped message. -/
def ConsensusMessage.validator : ConsensusMessage → ValidatorId
  | .propose m => m.validator
  | .prevote m => m.validator
  | .precommit m => m.validator

/-- `ConsensusMessage::height()`: dispatch to the wrapped message. -/
def ConsensusMessage.height : ConsensusMessage → Height
  | .propose m => m.height
  | .prevote m => m.height
  | .precommit m => m.height

/-- `ConsensusMessage::round()`: dispatch to the wrapped message. -/
def ConsensusMessage.round : ConsensusMessage → Round
  | .propose m => m.round
  | .prevote m => m.round
  | .precommit m => m.round

/-- `RequestMessage::to()`: dispatch to the wrapped request. -/
def RequestMessage.«to» : RequestMessage → PublicKey
  | .propose m => m.«to»
  | .transactions m => m.«to»
  | .prevotes m => m.«to»
  | .peers m => m.«to»
  | .block m => m.«to»

/-- C9: the `ConsensusMessage` accessors are total over all three variants
and return exactly the corresponding field of the wrapped message (they are
pure functions, so they never fail and never mutate). -/
theorem consensus_accessors_total :
    (∀ m : Propose, (ConsensusMessage.propose m).validator = m.validator ∧
      (ConsensusMessage.propose m).height = m.height ∧
      (ConsensusMessage.propose m).round = m.round) ∧
    (∀ m : Prevote, (ConsensusMessage.prevote m).validator = m.validator ∧
      (ConsensusMessage.prevote m).height = m.height ∧
      (ConsensusMessage.prevote m).round = m.round) ∧
    (∀ m : Precommit, (ConsensusMessage.precommit m).validator = m.validator ∧
      (ConsensusMessage.precommit m).height = m.height ∧
      (ConsensusMessage.precommit m).round = m.round) :=
  ⟨fun m => ⟨rfl, rfl, rfl⟩, fun m => ⟨rfl, rfl, rfl⟩, fun m => ⟨rfl, rfl, rfl⟩⟩

/-!
`impl_protocol!` instantiations: for each payload type `T`, a
`PartialEq<Protocol>` comparison that is true exactly when the `Protocol`
value is the matching variant holding an equal `T`, and the corresponding
`Into<Protocol>` embedding target.
-/

def Connect.eqProtocol (t : Connect) (p : Protocol) : Bool :=
  match p with
  | .connect c => decide (c = t)
  | _ => false

def Status.eqProtocol (t : Status) (p : Protocol) : Bool :=
  match p with
  | .status c => decide (c = t)
  | _ => false

def WithoutEncodingStatus.eqProtocol (t : WithoutEncodingStatus) (p : Protocol) : Bool :=
  match p with
  | .withoutEncodingStatus c => decide (c = t)
  | _ => false

def BlockResponse.eqProtocol (t : BlockResponse) (p : Protocol) : Bool :=
  match p with
  | .block c => decide (c = t)
  | _ => false

def RawTransaction.eqProtocol (t : RawTransaction) (p : Protocol) : Bool :=
  match p with
  | .transaction c => decide (c = t)
  | _ => false

def TransactionsResponse.eqProtocol (t : TransactionsResponse) (p : Protocol) : Bool :=
  match p with
  | .transactionsBatch c => decide (c = t)
  | _ => false

def ConsensusMessage.eqProtocol (t : ConsensusMessage) (p : Protocol) : Bool :=
  match p with
  | .consensus c => decide (c = t)
  | _ => false

def Propose.eqProtocol (t : Propose) (p : Protocol) : Bool :=
  match p with
  | .consensus (.propose c) => decide (c = t)
  | _ => false

def Prevote.eqProtocol (t : Prevote) (p : Protocol) : Bool :=
  match p with
  | .consensus (.prevote c) => decide (c = t)
  | _ => false

def Precommit.eqProtocol (t : Precommit) (p : Protocol) : Bool :=
  match p with
  | .consensus (.precommit c) => decide (c = t)
  | _ => false

def RequestMessage.eqProtocol (t : RequestMessage) (p : Protocol) : Bool :=
  match p with
  | .request c => decide (c = t)
  | _ => false

def ProposeRequest.eqProtocol (t : ProposeRequest) (p : Protocol) : Bool :=
  match p with
  | .request (.propose c) => decide (c = t)
  | _ => false

def TransactionsRequest.eqProtocol (t : TransactionsRequest) (p : Protocol) : Bool :=
  match p with
  | .request (.transactions c) => decide (c = t)
  | _ => false

def PrevotesRequest.eqProtocol (t : PrevotesRequest) (p : Protocol) : Bool :=
  match p with
  | .request (.prevotes c) => decide (c = t)
  | _ => false

def PeersRequest.eqProtocol (t : PeersRequest) (p : Protocol) : Bool :=
  match p with
  | .request (.peers c) => decide (c = t)
  | _ => false

def BlockRequest.eqProtocol (t : BlockRequest) (p : Protocol) : Bool :=
  match p with
  | .request (.block c) => decide (c = t)
  | _ => false

/-- C4: for every payload type in the closed message set, comparing a value
`t` against a `Protocol` value `p` is true iff `p` is the matching variant
holding a structurally equal value; on every other variant it is false (and,
being a total Bool function, it never fails). -/
theorem typed_eq_protocol_iff :
    (∀ (t : Connect) (p : Protocol),
      Connect.eqProtocol t p = true ↔ p = Protocol.connect t) ∧
    (∀ (t : Status) (p : Protocol),
      Status.eqProtocol t p = true ↔ p = Protocol.status t) ∧
    (∀ (t : WithoutEncodingStatus) (p : Protocol),
      WithoutEncodingStatus.eqProtocol t p = true ↔ p = Protocol.withoutEncodingStatus t) ∧
    (∀ (t : BlockResponse) (p : Protocol),
      BlockResponse.eqProtocol t p = true ↔ p = Protocol.block t) ∧
    (∀ (t : RawTransaction) (p : Protocol),
      RawTransaction.eqProtocol t p = true ↔ p = Protocol.transaction t) ∧
    (∀ (t : TransactionsResponse) (p : Protocol),
      TransactionsResponse.eqProtocol t p = true ↔ p = Protocol.transactionsBatch t) ∧
    (∀ (t : ConsensusMessage) (p : Protocol),
      ConsensusMessage.eqProtocol t p = true ↔ p = Protocol.consensus t) ∧
    (∀ (t : Propose) (p : Protocol),
      Propose.eqProtocol t p = true ↔
        p = Protocol.consensus (ConsensusMessage.propose t)) ∧
    (∀ (t : Prevote) (p : Protocol),
      Prevote.eqProtocol t p = true ↔
        p = Protocol.consensus (ConsensusMessage.prevote t)) ∧
    (∀ (t : Precommit) (p : Protocol),
      Precommit.eqProtocol t p = true ↔
        p = Protocol.consensus (ConsensusMessage.precommit t)) ∧
    (∀ (t : RequestMessage) (p : Protocol),
      RequestMessage.eqProtocol t p = true ↔ p = Protocol.request t) ∧
    (∀ (t : ProposeRequest) (p : Protocol),
      ProposeRequest.eqProtocol t p = true ↔
        p = Protocol.request (RequestMessage.propose t)) ∧
    (∀ (t : TransactionsRequest) (p : Protocol),
      TransactionsRequest.eqProtocol t p = true ↔
        p = Protocol.request (RequestMessage.transactions t)) ∧
    (∀ (t : PrevotesRequest) (p : Protocol),
      PrevotesRequest.eqProtocol t p = true ↔
        p = Protocol.request (RequestMessage.prevotes t)) ∧
    (∀ (t : PeersRequest) (p : Protocol),
      PeersRequest.eqProtocol t p = true ↔
        p = Protocol.request (RequestMessage.peers t)) ∧
    (∀ (t : BlockRequest) (p : Protocol),
      BlockRequest.eqProtocol t p = true ↔
        p = Protocol.request (RequestMessage.block t)) := by
  refine ⟨?_, ?_, ?_, ?_, ?_, ?_, ?_, ?_, ?_, ?_, ?_, ?_, ?_, ?_, ?_, ?_⟩ <;>
    intro t p <;>
    cases p <;>
    first
      | (simp [Connect.eqProtocol, Status.eqProtocol, WithoutEncodingStatus.eqProtocol,
          BlockResponse.eqProtocol, RawTransaction.eqProtocol,
          TransactionsResponse.eqProtocol, ConsensusMessage.eqProtocol,
          Propose.eqProtocol, Prevote.eqProtocol, Precommit.eqProtocol,
          RequestMessage.eqProtocol, ProposeRequest.eqProtocol,
          TransactionsRequest.eqProtocol, PrevotesRequest.eqProtocol,
          PeersRequest.eqProtocol, BlockRequest.eqProtocol]; done)
      | (rename_i c; cases c <;>
          simp [Connect.eqProtocol, Status.eqProtocol, WithoutEncodingStatus.eqProtocol,
            BlockResponse.eqProtocol, RawTransaction.eqProtocol,
            TransactionsResponse.eqProtocol, ConsensusMessage.eqProtocol,
            Propose.eqProtocol, Prevote.eqProtocol, Precommit.eqProtocol,
            RequestMessage.eqProtocol, ProposeRequest.eqProtocol,
            TransactionsRequest.eqProtocol, PrevotesRequest.eqProtocol,
            PeersRequest.eqProtocol, BlockRequest.eqProtocol])

/-!
Wire codec for `Protocol`.  The spec fixes the field sets, their order and
semantic types; exact byte placement is delegated to the trusted
field-layout collaborator (not under `src/`), so the realization below is
modelled from the spec: each variant is selected by a 4-byte little-endian
discriminant in declaration order (the serde/bincode convention used by the
repository), fields are encoded in declaration order, fixed-width scalars as
little-endian bytes, and variable-length fields with a 4-byte length prefix.
-/

abbrev Parser (α : Type) := List Byte → Option (α × List Byte)

/-- Read exactly `n` bytes. -/
def pBytes (n : Nat) : Parser {l : List Byte // l.length = n} := fun l =>
  if h : n ≤ l.length then
    some (⟨l.take n, by rw [List.length_take, Nat.min_eq_left h]⟩, l.drop n)
  else none

theorem pBytes_enc (n : Nat) (xl : List Byte) (hx : xl.length = n) (rest : List Byte) :
    pBytes n (xl ++ rest) = some (⟨xl, hx⟩, rest) := by
  simp only [pBytes]
  rw [dif_pos (by rw [List.length_append]; omega)]
  have ht : (xl ++ rest).take n = xl := List.take_left' hx
  have hd : (xl ++ rest).drop n = rest := List.drop_left' hx
  simp [ht, hd]

/-- Read a `w`-byte little-endian unsigned number as a `Nat`. -/
def pNat (w : Nat) : Parser Nat := fun l =>
  (pBytes w l).map fun x => (fromLE x.1.val, x.2)

theorem pNat_enc (w k : Nat) (rest : List Byte) :
    pNat w (leBytes w k ++ rest) = some (k % 2 ^ (8 * w), rest) := by
  simp only [pNat]
  rw [pBytes_enc w (leBytes w k) (leBytes_length w k) rest]
  simp [fromLE_leBytes]

theorem pNat_enc_of_lt (w k : Nat) (h : k < 2 ^ (8 * w)) (rest : List Byte) :
    pNat w (leBytes w k ++ rest) = some (k, rest) := by
  rw [pNat_enc, Nat.mod_eq_of_lt h]

def pU16 : Parser U16 := fun l =>
  (pBytes 2 l).map fun x => (⟨fromLE x.1.val, by
    have h := fromLE_lt x.1.val
    rw [x.1.prop] at h
    exact h⟩, x.2)

theorem pU16_enc (n : U16) (rest : List Byte) :
    pU16 (u16IntoBytes n ++ rest) = some (n, rest) := by
  simp only [pU16, u16IntoBytes]
  rw [pBytes_enc 2 (leBytes 2 n.val) (leBytes_length 2 n.val) rest]
  simp [@fromLE_leBytes_of_lt 2 n.val n.prop]

def pU32 : Parser U32 := fun l =>
  (pBytes 4 l).map fun x => (⟨fromLE x.1.val, by
    have h := fromLE_lt x.1.val
    rw [x.1.prop] at h
    exact h⟩, x.2)

theorem pU32_enc (n : U32) (rest : List Byte) :
    pU32 (u32IntoBytes n ++ rest) = some (n, rest) := by
  simp only [pU32, u32IntoBytes]
  rw [pBytes_enc 4 (leBytes 4 n.val) (leBytes_length 4 n.val) rest]
  simp [@fromLE_leBytes_of_lt 4 n.val n.prop]

def pU64 : Parser U64 := fun l =>
  (pBytes 8 l).map fun x => (⟨fromLE x.1.val, by
    have h := fromLE_lt x.1.val
    rw [x.1.prop] at h
    exact h⟩, x.2)

theorem pU64_enc (n : U64) (rest : List Byte) :
    pU64 (u64IntoBytes n ++ rest) = some (n, rest) := by
  simp only [pU64, u64IntoBytes]
  rw [pBytes_enc 8 (leBytes 8 n.val) (leBytes_length 8 n.val) rest]
  simp [@fromLE_leBytes_of_lt 8 n.val n.prop]

def pI64 : Parser I64 := fun l =>
  (pBytes 8 l).map fun x => (⟨fromLEI 8 x.1.val, by
    have h2 := fromLE_lt x.1.val
    rw [x.1.prop] at h2
    exact fromLEI_bounds 8 (by decide) x.1.val h2⟩, x.2)

theorem pI64_enc (i : I64) (rest : List Byte) :
    pI64 (i64IntoBytes i ++ rest) = some (i, rest) := by
  simp only [pI64, i64IntoBytes]
  rw [pBytes_enc 8 (leBytesI 8 i.val) (leBytesI_length 8 i.val) rest]
  simp [twos_complement_roundtrip 8 (by decide) i.val i.prop.1 i.prop.2]

def pRound : Parser Round := fun l =>
  (pU32 l).map fun x => (Round.mk x.1, x.2)

theorem pRound_enc (r : Round) (rest : List Byte) :
    pRound (roundIntoBytes r ++ rest) = some (r, rest) := by
  obtain ⟨v⟩ := r
  simp only [pRound, roundIntoBytes]
  rw [pU32_enc v rest]
  rfl

def pHash : Parser Hash := fun l =>
  (pBytes 32 l).map fun x => (Hash.mk x.1, x.2)

theorem pHash_enc (h : Hash) (rest : List Byte) :
    pHash (hashIntoBytes h ++ rest) = some (h, rest) := by
  obtain ⟨⟨xl, hx⟩⟩ := h
  show pHash (xl ++ rest) = _
  simp only [pHash]
  rw [pBytes_enc 32 xl hx rest]
  rfl

def pPK : Parser PublicKey := fun l =>
  (pBytes 32 l).map fun x => (PublicKey.mk x.1, x.2)

theorem pPK_enc (k : PublicKey) (rest : List Byte) :
    pPK (pkIntoBytes k ++ rest) = some (k, rest) := by
  obtain ⟨⟨xl, hx⟩⟩ := k
  show pPK (xl ++ rest) = _
  simp only [pPK]
  rw [pBytes_enc 32 xl hx rest]
  rfl

/-- Raw bytes of a signature (the crypto collaborator's fixed width). -/
def sigIntoBytes (s : Signature) : List Byte := s.data.val

def pSig : Parser Signature := fun l =>
  (pBytes 64 l).map fun x => (Signature.mk x.1, x.2)

theorem pSig_enc (s : Signature) (rest : List Byte) :
    pSig (sigIntoBytes s ++ rest) = some (s, rest) := by
  obtain ⟨⟨xl, hx⟩⟩ := s
  show pSig (xl ++ rest) = _
  simp only [pSig]
  rw [pBytes_enc 64 xl hx rest]
  rfl

/-- Wire layout of a timestamp field: LE i64 seconds then LE u32 nanos. -/
def encDateTime (t : DateTimeUtc) : List Byte :=
  i64IntoBytes t.secs ++ u32IntoBytes t.nanos

def pDateTime : Parser DateTimeUtc := fun l =>
  (pI64 l).bind fun x => (pU32 x.2).map fun y => (DateTimeUtc.mk x.1 y.1, y.2)

theorem pDateTime_enc (t : DateTimeUtc) (rest : List Byte) :
    pDateTime (encDateTime t ++ rest) = some (t, rest) := by
  obtain ⟨s, n⟩ := t
  simp [pDateTime, encDateTime, List.append_assoc, pI64_enc, pU32_enc]

/-- Length-prefixed list: 4-byte LE count, then each element in order. -/
def encList {α : Type} (e : α → List Byte) (xs : List α) : List Byte :=
  leBytes 4 xs.length ++ (xs.map e).flatten

def pCount {α : Type} (p : Parser α) : Nat → Parser (List α)
  | 0 => fun l => some ([], l)
  | n + 1 => fun l =>
      (p l).bind fun x =>
        (pCount p n x.2).map fun y => (x.1 :: y.1, y.2)

def pList {α : Type} (p : Parser α) : Parser (List α) := fun l =>
  (pNat 4 l).bind fun x => pCount p x.1 x.2

theorem pCount_enc {α : Type} (p : Parser α) (e : α → List Byte) (xs : List α)
    (hp : ∀ x ∈ xs, ∀ r : List Byte, p (e x ++ r) = some (x, r)) (rest : List Byte) :
    pCount p xs.length ((xs.map e).flatten ++ rest) = some (xs, rest) := by
  induction xs with
  | nil => simp [pCount]
  | cons a t ih =>
    simp only [List.map_cons, List.flatten_cons, List.length_cons, pCount,
      List.append_assoc]
    rw [hp a (by simp)]
    simp only [Option.some_bind]
    rw [ih (fun x hx r => hp x (by simp [hx]) r)]
    rfl

theorem pList_enc {α : Type} (p : Parser α) (e : α → List Byte) (xs : List α)
    (hlen : xs.length < 2 ^ 32)
    (hp : ∀ x ∈ xs, ∀ r : List Byte, p (e x ++ r) = some (x, r)) (rest : List Byte) :
    pList p (encList e xs ++ rest) = some (xs, rest) := by
  simp only [pList, encList, List.append_assoc]
  rw [pNat_enc_of_lt 4 xs.length hlen]
  simp only [Option.some_bind]
  exact pCount_enc p e xs hp rest

/-- Length-prefixed UTF-8 string field. -/
def encStr (s : RustString) : List Byte := leBytes 4 s.val.length ++ s.val

def pStr : Parser RustString := fun l =>
  (pNat 4 l).bind fun x =>
    (pBytes x.1 x.2).bind fun y =>
      if h : validUtf8 y.1.val = true then some (⟨y.1.val, h⟩, y.2) else none

theorem pStr_enc (s : RustString) (hlen : s.val.length < 2 ^ 32) (rest : List Byte) :
    pStr (encStr s ++ rest) = some (s, rest) := by
  obtain ⟨sv, hs⟩ := s
  simp only [encStr, pStr, List.append_assoc]
  rw [pNat_enc_of_lt 4 sv.length hlen]
  simp only [Option.some_bind]
  rw [pBytes_enc sv.length sv rfl rest]
  simp [hs]

/-- One bit of a `BitVec` field, one byte on the wire. -/
def encBool1 (b : Bool) : List Byte := [if b then (1 : Byte) else 0]

def pBool1 : Parser Bool := fun l =>
  match l with
  | [] => none
  | b :: r => some (b.val != 0, r)

theorem pBool1_enc (b : Bool) (r : List Byte) :
    pBool1 (encBool1 b ++ r) = some (b, r) := by
  cases b <;> rfl

/-- A `BitVec` field: bit count then one byte per bit.  Modelled from the
spec: the bit-packing layout belongs to the excluded field-layout
collaborator; only the sequence of bits is semantic. -/
def encBits (bs : List Bool) : List Byte := encList encBool1 bs

def pBits : Parser (List Bool) := pList pBool1

theorem pBits_enc (bs : List Bool) (hlen : bs.length < 2 ^ 32) (rest : List Byte) :
    pBits (encBits bs ++ rest) = some (bs, rest) :=
  pList_enc pBool1 encBool1 bs hlen (fun x hx r => pBool1_enc x r) rest

/-- Wire layout of a socket address: version tag, address bytes, LE port. -/
def SocketAddr.enc : SocketAddr → List Byte
  | .v4 ip port => 0 :: (ip.val ++ u16IntoBytes port)
  | .v6 ip port => 1 :: (ip.val ++ u16IntoBytes port)

def SocketAddr.parse : Parser SocketAddr := fun l =>
  match l with
  | [] => none
  | t :: l2 =>
    if t.val = 0 then
      (pBytes 4 l2).bind fun x => (pU16 x.2).map fun y => (SocketAddr.v4 x.1 y.1, y.2)
    else if t.val = 1 then
      (pBytes 16 l2).bind fun x => (pU16 x.2).map fun y => (SocketAddr.v6 x.1 y.1, y.2)
    else none

theorem sockAddr_parse_enc (a : SocketAddr) (rest : List Byte) :
    SocketAddr.parse (SocketAddr.enc a ++ rest) = some (a, rest) := by
  cases a with
  | v4 ip port =>
    obtain ⟨iv, hi⟩ := ip
    simp only [SocketAddr.enc, List.cons_append, List.append_assoc, SocketAddr.parse]
    rw [if_pos (by decide)]
    rw [pBytes_enc 4 iv hi]
    simp [pU16_enc]
  | v6 ip port =>
    obtain ⟨iv, hi⟩ := ip
    simp only [SocketAddr.enc, List.cons_append, List.append_assoc, SocketAddr.parse]
    rw [if_neg (by decide), if_pos (by decide)]
    rw [pBytes_enc 16 iv hi]
    simp [pU16_enc]

/-- Wire layout of an embedded `SignedMessage`: length-prefixed payload,
author key, signature.  Modelled from the spec (the `messages` module root
is not under `src/`). -/
def SignedMessage.enc (m : SignedMessage) : List Byte :=
  leBytes 4 m.payload.length ++
    (m.payload ++ (pkIntoBytes m.author ++ sigIntoBytes m.signature))

def SignedMessage.parse : Parser SignedMessage := fun l =>
  (pNat 4 l).bind fun x =>
    (pBytes x.1 x.2).bind fun y =>
      (pPK y.2).bind fun z =>
        (pSig z.2).map fun w => (SignedMessage.mk y.1.val z.1 w.1, w.2)

theorem signedMessage_parse_enc (m : SignedMessage)
    (hlen : m.payload.length < 2 ^ 32) (rest : List Byte) :
    SignedMessage.parse (SignedMessage.enc m ++ rest) = some (m, rest) := by
  obtain ⟨pl, a, sg⟩ := m
  simp only [SignedMessage.enc, SignedMessage.parse, List.append_assoc]
  rw [pNat_enc_of_lt 4 pl.length (by simpa using hlen)]
  simp only [Option.some_bind]
  rw [pBytes_enc pl.length pl rfl]
  simp [pPK_enc, pSig_enc]

/-- `Block` fields in declaration order. -/
def Block.enc (b : Block) : List Byte :=
  u16IntoBytes b.schema_version ++ (u16IntoBytes b.proposer_id ++
    (u64IntoBytes b.height ++ (u32IntoBytes b.tx_count ++
      (hashIntoBytes b.prev_hash ++ (hashIntoBytes b.tx_hash ++
        hashIntoBytes b.state_hash)))))

def Block.parse : Parser Block := fun l =>
  (pU16 l).bind fun a =>
    (pU16 a.2).bind fun b =>
      (pU64 b.2).bind fun c =>
        (pU32 c.2).bind fun d =>
          (pHash d.2).bind fun e =>
            (pHash e.2).bind fun f =>
              (pHash f.2).map fun g =>
                (Block.mk a.1 b.1 c.1 d.1 e.1 f.1 g.1, g.2)

theorem block_parse_enc (b : Block) (rest : List Byte) :
    Block.parse (Block.enc b ++ rest) = some (b, rest) := by
  obtain ⟨sv, pid, h, tc, ph, th, sh⟩ := b
  simp [Block.enc, Block.parse, List.append_assoc, pU16_enc, pU64_enc, pU32_enc,
    pHash_enc]

/-- `Connect` fields in declaration order. -/
def Connect.enc (c : Connect) : List Byte :=
  SocketAddr.enc c.addr ++ (encDateTime c.time ++ encStr c.user_agent)

def Connect.parse : Parser Connect := fun l =>
  (SocketAddr.parse l).bind fun a =>
    (pDateTime a.2).bind fun b =>
      (pStr b.2).map fun c => (Connect.mk a.1 b.1 c.1, c.2)

theorem connect_parse_enc (c : Connect) (h : c.user_agent.val.length < 2 ^ 32)
    (rest : List Byte) :
    Connect.parse (Connect.enc c ++ rest) = some (c, rest) := by
  obtain ⟨ad, tm, ua⟩ := c
  have hs : ∀ rr : List Byte, pStr (encStr ua ++ rr) = some (ua, rr) :=
    fun rr => pStr_enc ua (by simpa using h) rr
  simp [Connect.enc, Connect.parse, List.append_assoc, sockAddr_parse_enc,
    pDateTime_enc, hs]

/-- `Status` fields in declaration order. -/
def Status.enc (s : Status) : List Byte :=
  u64IntoBytes s.height ++ hashIntoBytes s.last_hash

def Status.parse : Parser Status := fun l =>
  (pU64 l).bind fun a =>
    (pHash a.2).map fun b => (Status.mk a.1 b.1, b.2)

theorem status_parse_enc (s : Status) (rest : List Byte) :
    Status.parse (Status.enc s ++ rest) = some (s, rest) := by
  obtain ⟨h, lh⟩ := s
  simp [Status.enc, Status.parse, List.append_assoc, pU64_enc, pHash_enc]

/-- `WithoutEncodingStatus` fields in declaration order. -/
def WithoutEncodingStatus.enc (s : WithoutEncodingStatus) : List Byte :=
  u64IntoBytes s.height ++ hashIntoBytes s.last_hash

def WithoutEncodingStatus.parse : Parser WithoutEncodingStatus := fun l =>
  (pU64 l).bind fun a =>
    (pHash a.2).map fun b => (WithoutEncodingStatus.mk a.1 b.1, b.2)

theorem wstatus_parse_enc (s : WithoutEncodingStatus) (rest : List Byte) :
    WithoutEncodingStatus.parse (WithoutEncodingStatus.enc s ++ rest) = some (s, rest) := by
  obtain ⟨h, lh⟩ := s
  simp [WithoutEncodingStatus.enc, WithoutEncodingStatus.parse, List.append_assoc,
    pU64_enc, pHash_enc]

/-- `Propose` fields in declaration order. -/
def Propose.enc (m : Propose) : List Byte :=
  u16IntoBytes m.validator ++ (u64IntoBytes m.height ++ (roundIntoBytes m.round ++
    (hashIntoBytes m.prev_hash ++ encList hashIntoBytes m.transactions)))

def Propose.parse : Parser Propose := fun l =>
  (pU16 l).bind fun a =>
    (pU64 a.2).bind fun b =>
      (pRound b.2).bind fun c =>
        (pHash c.2).bind fun d =>
          (pList pHash d.2).map fun e => (Propose.mk a.1 b.1 c.1 d.1 e.1, e.2)

theorem propose_parse_enc (m : Propose) (h : m.transactions.length < 2 ^ 32)
    (rest : List Byte) :
    Propose.parse (Propose.enc m ++ rest) = some (m, rest) := by
  obtain ⟨v, hh, r, ph, txs⟩ := m
  have hl : ∀ rr : List Byte, pList pHash (encList hashIntoBytes txs ++ rr) = some (txs, rr) :=
    fun rr => pList_enc pHash hashIntoBytes txs (by simpa using h)
      (fun x hx rr2 => pHash_enc x rr2) rr
  simp [Propose.enc, Propose.parse, List.append_assoc, pU16_enc, pU64_enc,
    pRound_enc, pHash_enc, hl]

/-- `Prevote` fields in declaration order. -/
def Prevote.enc (m : Prevote) : List Byte :=
  u16IntoBytes m.validator ++ (u64IntoBytes m.height ++ (roundIntoBytes m.round ++
    (hashIntoBytes m.propose_hash ++ roundIntoBytes m.locked_round)))

def Prevote.parse : Parser Prevote := fun l =>
  (pU16 l).bind fun a =>
    (pU64 a.2).bind fun b =>
      (pRound b.2).bind fun c =>
        (pHash c.2).bind fun d =>
          (pRound d.2).map fun e => (Prevote.mk a.1 b.1 c.1 d.1 e.1, e.2)

theorem prevote_parse_enc (m : Prevote) (rest : List Byte) :
    Prevote.parse (Prevote.enc m ++ rest) = some (m, rest) := by
  obtain ⟨v, hh, r, ph, lr⟩ := m
  simp [Prevote.enc, Prevote.parse, List.append_assoc, pU16_enc, pU64_enc,
    pRound_enc, pHash_enc]

/-- `Precommit` fields in declaration order. -/
def Precommit.enc (m : Precommit) : List Byte :=
  u16IntoBytes m.validator ++ (u64IntoBytes m.height ++ (roundIntoBytes m.round ++
    (hashIntoBytes m.propose_hash ++ (hashIntoBytes m.block_hash ++
      encDateTime m.time))))

def Precommit.parse : Parser Precommit := fun l =>
  (pU16 l).bind fun a =>
    (pU64 a.2).bind fun b =>
      (pRound b.2).bind fun c =>
        (pHash c.2).bind fun d =>
          (pHash d.2).bind fun e =>
            (pDateTime e.2).map fun f => (Precommit.mk a.1 b.1 c.1 d.1 e.1 f.1, f.2)

theorem precommit_parse_enc (m : Precommit) (rest : List Byte) :
    Precommit.parse (Precommit.enc m ++ rest) = some (m, rest) := by
  obtain ⟨v, hh, r, ph, bh, tm⟩ := m
  simp [Precommit.enc, Precommit.parse, List.append_assoc, pU16_enc, pU64_enc,
    pRound_enc, pHash_enc, pDateTime_enc]

/-- `BlockResponse` fields in declaration order. -/
def BlockResponse.enc (b : BlockResponse) : List Byte :=
  pkIntoBytes b.«to» ++ (Block.enc b.block ++
    (encList SignedMessage.enc b.precommits ++ encList hashIntoBytes b.transactions))

def BlockResponse.parse : Parser BlockResponse := fun l =>
  (pPK l).bind fun a =>
    (Block.parse a.2).bind fun b =>
      (pList SignedMessage.parse b.2).bind fun c =>
        (pList pHash c.2).map fun d => (BlockResponse.mk a.1 b.1 c.1 d.1, d.2)

theorem blockResponse_parse_enc (b : BlockResponse)
    (h1 : b.precommits.length < 2 ^ 32)
    (h2 : ∀ m ∈ b.precommits, m.payload.length < 2 ^ 32)
    (h3 : b.transactions.length < 2 ^ 32) (rest : List Byte) :
    BlockResponse.parse (BlockResponse.enc b ++ rest) = some (b, rest) := by
  obtain ⟨pk, bl, pcs, txs⟩ := b
  have hp : ∀ rr : List Byte,
      pList SignedMessage.parse (encList SignedMessage.enc pcs ++ rr) = some (pcs, rr) :=
    fun rr => pList_enc SignedMessage.parse SignedMessage.enc pcs (by simpa using h1)
      (fun x hx rr2 => signedMessage_parse_enc x (h2 x (by simpa using hx)) rr2) rr
  have hl : ∀ rr : List Byte, pList pHash (encList hashIntoBytes txs ++ rr) = some (txs, rr) :=
    fun rr => pList_enc pHash hashIntoBytes txs (by simpa using h3)
      (fun x hx rr2 => pHash_enc x rr2) rr
  simp [BlockResponse.enc, BlockResponse.parse, List.append_assoc, pPK_enc,
    block_parse_enc, hp, hl]

/-- `TransactionsResponse` fields in declaration order. -/
def TransactionsResponse.enc (t : TransactionsResponse) : List Byte :=
  pkIntoBytes t.«to» ++ encList SignedMessage.enc t.transactions

def TransactionsResponse.parse : Parser TransactionsResponse := fun l =>
  (pPK l).bind fun a =>
    (pList SignedMessage.parse a.2).map fun b => (TransactionsResponse.mk a.1 b.1, b.2)

theorem transactionsResponse_parse_enc (t : TransactionsResponse)
    (h1 : t.transactions.length < 2 ^ 32)
    (h2 : ∀ m ∈ t.transactions, m.payload.length < 2 ^ 32) (rest : List Byte) :
    TransactionsResponse.parse (TransactionsResponse.enc t ++ rest) = some (t, rest) := by
  obtain ⟨pk, txs⟩ := t
  have hp : ∀ rr : List Byte,
      pList SignedMessage.parse (encList SignedMessage.enc txs ++ rr) = some (txs, rr) :=
    fun rr => pList_enc SignedMessage.parse SignedMessage.enc txs (by simpa using h1)
      (fun x hx rr2 => signedMessage_parse_enc x (h2 x (by simpa using hx)) rr2) rr
  simp [TransactionsResponse.enc, TransactionsResponse.parse, List.append_assoc,
    pPK_enc, hp]

/-- `ProposeRequest` fields in declaration order. -/
def ProposeRequest.enc (m : ProposeRequest) : List Byte :=
  pkIntoBytes m.«to» ++ (u64IntoBytes m.height ++ hashIntoBytes m.propose_hash)

def ProposeRequest.parse : Parser ProposeRequest := fun l =>
  (pPK l).bind fun a =>
    (pU64 a.2).bind fun b =>
      (pHash b.2).map fun c => (ProposeRequest.mk a.1 b.1 c.1, c.2)

theorem proposeRequest_parse_enc (m : ProposeRequest) (rest : List Byte) :
    ProposeRequest.parse (ProposeRequest.enc m ++ rest) = some (m, rest) := by
  obtain ⟨pk, h, ph⟩ := m
  simp [ProposeRequest.enc, ProposeRequest.parse, List.append_assoc, pPK_enc,
    pU64_enc, pHash_enc]

/-- `TransactionsRequest` fields in declaration order. -/
def TransactionsRequest.enc (m : TransactionsRequest) : List Byte :=
  pkIntoBytes m.«to» ++ encList hashIntoBytes m.txs

def TransactionsRequest.parse : Parser TransactionsRequest := fun l =>
  (pPK l).bind fun a =>
    (pList pHash a.2).map fun b => (TransactionsRequest.mk a.1 b.1, b.2)

theorem transactionsRequest_parse_enc (m : TransactionsRequest)
    (h : m.txs.length < 2 ^ 32) (rest : List Byte) :
    TransactionsRequest.parse (TransactionsRequest.enc m ++ rest) = some (m, rest) := by
  obtain ⟨pk, txs⟩ := m
  have hl : ∀ rr : List Byte, pList pHash (encList hashIntoBytes txs ++ rr) = some (txs, rr) :=
    fun rr => pList_enc pHash hashIntoBytes txs (by simpa using h)
      (fun x hx rr2 => pHash_enc x rr2) rr
  simp [TransactionsRequest.enc, TransactionsRequest.parse, List.append_assoc,
    pPK_enc, hl]

/-- `PrevotesRequest` fields in declaration order. -/
def PrevotesRequest.enc (m : PrevotesRequest) : List Byte :=
  pkIntoBytes m.«to» ++ (u64IntoBytes m.height ++ (roundIntoBytes m.round ++
    (hashIntoBytes m.propose_hash ++ encBits m.validators)))

def PrevotesRequest.parse : Parser PrevotesRequest := fun l =>
  (pPK l).bind fun a =>
    (pU64 a.2).bind fun b =>
      (pRound b.2).bind fun c =>
        (pHash c.2).bind fun d =>
          (pBits d.2).map fun e => (PrevotesRequest.mk a.1 b.1 c.1 d.1 e.1, e.2)

theorem prevotesRequest_parse_enc (m : PrevotesRequest)
    (h : m.validators.length < 2 ^ 32) (rest : List Byte) :
    PrevotesRequest.parse (PrevotesRequest.enc m ++ rest) = some (m, rest) := by
  obtain ⟨pk, hh, r, ph, vs⟩ := m
  have hb : ∀ rr : List Byte, pBits (encBits vs ++ rr) = some (vs, rr) :=
    fun rr => pBits_enc vs (by simpa using h) rr
  simp [PrevotesRequest.enc, PrevotesRequest.parse, List.append_assoc, pPK_enc,
    pU64_enc, pRound_enc, pHash_enc, hb]

/-- `PeersRequest` fields in declaration order. -/
def PeersRequest.enc (m : PeersRequest) : List Byte := pkIntoBytes m.«to»

def PeersRequest.parse : Parser PeersRequest := fun l =>
  (pPK l).map fun a => (PeersRequest.mk a.1, a.2)

theorem peersRequest_parse_enc (m : PeersRequest) (rest : List Byte) :
    PeersRequest.parse (PeersRequest.enc m ++ rest) = some (m, rest) := by
  obtain ⟨pk⟩ := m
  simp [PeersRequest.enc, PeersRequest.parse, pPK_enc]

/-- `BlockRequest` fields in declaration order. -/
def BlockRequest.enc (m : BlockRequest) : List Byte :=
  pkIntoBytes m.«to» ++ u64IntoBytes m.height

def BlockRequest.parse : Parser BlockRequest := fun l =>
  (pPK l).bind fun a =>
    (pU64 a.2).map fun b => (BlockRequest.mk a.1 b.1, b.2)

theorem blockRequest_parse_enc (m : BlockRequest) (rest : List Byte) :
    BlockRequest.parse (BlockRequest.enc m ++ rest) = some (m, rest) := by
  obtain ⟨pk, h⟩ := m
  simp [BlockRequest.enc, BlockRequest.parse, List.append_assoc, pPK_enc, pU64_enc]

/-- Inner discriminant plus payload for a consensus message (variant order:
Propose, Prevote, Precommit). -/
def ConsensusMessage.enc : ConsensusMessage → List Byte
  | .propose m => leBytes 4 0 ++ Propose.enc m
  | .prevote m => leBytes 4 1 ++ Prevote.enc m
  | .precommit m => leBytes 4 2 ++ Precommit.enc m

def ConsensusMessage.parse : Parser ConsensusMessage := fun l =>
  (pNat 4 l).bind fun x =>
    match x.1 with
    | 0 => (Propose.parse x.2).map fun y => (ConsensusMessage.propose y.1, y.2)
    | 1 => (Prevote.parse x.2).map fun y => (ConsensusMessage.prevote y.1, y.2)
    | 2 => (Precommit.parse x.2).map fun y => (ConsensusMessage.precommit y.1, y.2)
    | _ => none

/-- Inner discriminant plus payload for a request message (variant order:
Propose, Transactions, Prevotes, Peers, Block). -/
def RequestMessage.enc : RequestMessage → List Byte
  | .propose m => leBytes 4 0 ++ ProposeRequest.enc m
  | .transactions m => leBytes 4 1 ++ TransactionsRequest.enc m
  | .prevotes m => leBytes 4 2 ++ PrevotesRequest.enc m
  | .peers m => leBytes 4 3 ++ PeersRequest.enc m
  | .block m => leBytes 4 4 ++ BlockRequest.enc m

def RequestMessage.parse : Parser RequestMessage := fun l =>
  (pNat 4 l).bind fun x =>
    match x.1 with
    | 0 => (ProposeRequest.parse x.2).map fun y => (RequestMessage.propose y.1, y.2)
    | 1 => (TransactionsRequest.parse x.2).map fun y => (RequestMessage.transactions y.1, y.2)
    | 2 => (PrevotesRequest.parse x.2).map fun y => (RequestMessage.prevotes y.1, y.2)
    | 3 => (PeersRequest.parse x.2).map fun y => (RequestMessage.peers y.1, y.2)
    | 4 => (BlockRequest.parse x.2).map fun y => (RequestMessage.block y.1, y.2)
    | _ => none

/-- Boundedness of the variable-length fields of a message: every
length-prefixed list or string fits its 4-byte length prefix. -/
def SignedMessage.sizeOk (m : SignedMessage) : Bool :=
  decide (m.payload.length < 2 ^ 32)

def Connect.sizeOk (c : Connect) : Bool :=
  decide (c.user_agent.val.length < 2 ^ 32)

def Propose.sizeOk (m : Propose) : Bool :=
  decide (m.transactions.length < 2 ^ 32)

def BlockResponse.sizeOk (b : BlockResponse) : Bool :=
  decide (b.precommits.length < 2 ^ 32) && b.precommits.all SignedMessage.sizeOk &&
    decide (b.transactions.length < 2 ^ 32)

def TransactionsResponse.sizeOk (t : TransactionsResponse) : Bool :=
  decide (t.transactions.length < 2 ^ 32) && t.transactions.all SignedMessage.sizeOk

def TransactionsRequest.sizeOk (m : TransactionsRequest) : Bool :=
  decide (m.txs.length < 2 ^ 32)

def PrevotesRequest.sizeOk (m : PrevotesRequest) : Bool :=
  decide (m.validators.length < 2 ^ 32)

def ConsensusMessage.sizeOk : ConsensusMessage → Bool
  | .propose m => m.sizeOk
  | .prevote _ => true
  | .precommit _ => true

def RequestMessage.sizeOk : RequestMessage → Bool
  | .propose _ => true
  | .transactions m => m.sizeOk
  | .prevotes m => m.sizeOk
  | .peers _ => true
  | .block _ => true

def Protocol.sizeOk : Protocol → Bool
  | .transaction _ => true
  | .connect c => c.sizeOk
  | .status _ => true
  | .withoutEncodingStatus _ => true
  | .block b => b.sizeOk
  | .consensus c => c.sizeOk
  | .request r => r.sizeOk
  | .transactionsBatch t => t.sizeOk

/-- Wire discriminant of each `Protocol` variant, in declaration order. -/
def Protocol.tag : Protocol → Nat
  | .transaction _ => 0
  | .connect _ => 1
  | .status _ => 2
  | .withoutEncodingStatus _ => 3
  | .block _ => 4
  | .consensus _ => 5
  | .request _ => 6
  | .transactionsBatch _ => 7

/-- Wire encoding of a `Protocol` value: 4-byte LE discriminant, then the
variant payload. -/
def Protocol.enc : Protocol → List Byte
  | .transaction t => leBytes 4 0 ++ t
  | .connect c => leBytes 4 1 ++ Connect.enc c
  | .status s => leBytes 4 2 ++ Status.enc s
  | .withoutEncodingStatus s => leBytes 4 3 ++ WithoutEncodingStatus.enc s
  | .block b => leBytes 4 4 ++ BlockResponse.enc b
  | .consensus c => leBytes 4 5 ++ ConsensusMessage.enc c
  | .request r => leBytes 4 6 ++ RequestMessage.enc r
  | .transactionsBatch t => leBytes 4 7 ++ TransactionsResponse.enc t

/-- Require the payload parser to have consumed the whole buffer. -/
def expectEnd {α : Type} (f : α → Protocol) : α × List Byte → Option Protocol := fun y =>
  match y.2 with
  | [] => some (f y.1)
  | _ :: _ => none

/-- Wire decoding: read the discriminant, dispatch to the variant's field
schema, reject unknown discriminants and trailing bytes. -/
def Protocol.dec : List Byte → Option Protocol := fun l =>
  (pNat 4 l).bind fun x =>
    match x.1 with
    | 0 => some (Protocol.transaction x.2)
    | 1 => (Connect.parse x.2).bind (expectEnd Protocol.connect)
    | 2 => (Status.parse x.2).bind (expectEnd Protocol.status)
    | 3 => (WithoutEncodingStatus.parse x.2).bind (expectEnd Protocol.withoutEncodingStatus)
    | 4 => (BlockResponse.parse x.2).bind (expectEnd Protocol.block)
    | 5 => (ConsensusMessage.parse x.2).bind (expectEnd Protocol.consensus)
    | 6 => (RequestMessage.parse x.2).bind (expectEnd Protocol.request)
    | 7 => (TransactionsResponse.parse x.2).bind (expectEnd Protocol.transactionsBatch)
    | _ => none

theorem consensus_parse_enc (c : ConsensusMessage) (h : c.sizeOk = true)
    (rest : List Byte) :
    ConsensusMessage.parse (ConsensusMessage.enc c ++ rest) = some (c, rest) := by
  cases c with
  | propose m =>
    have hm : m.transactions.length < 2 ^ 32 := by
      simpa [ConsensusMessage.sizeOk, Propose.sizeOk] using h
    simp only [ConsensusMessage.parse, ConsensusMessage.enc, List.append_assoc]
    rw [pNat_enc_of_lt 4 0 (by norm_num)]
    simp [propose_parse_enc m hm]
  | prevote m =>
    simp only [ConsensusMessage.parse, ConsensusMessage.enc, List.append_assoc]
    rw [pNat_enc_of_lt 4 1 (by norm_num)]
    simp [prevote_parse_enc m]
  | precommit m =>
    simp only [ConsensusMessage.parse, ConsensusMessage.enc, List.append_assoc]
    rw [pNat_enc_of_lt 4 2 (by norm_num)]
    simp [precommit_parse_enc m]

theorem request_parse_enc (r : RequestMessage) (h : r.sizeOk = true)
    (rest : List Byte) :
    RequestMessage.parse (RequestMessage.enc r ++ rest) = some (r, rest) := by
  cases r with
  | propose m =>
    simp only [RequestMessage.parse, RequestMessage.enc, List.append_assoc]
    rw [pNat_enc_of_lt 4 0 (by norm_num)]
    simp [proposeRequest_parse_enc m]
  | transactions m =>
    have hm : m.txs.length < 2 ^ 32 := by
      simpa [RequestMessage.sizeOk, TransactionsRequest.sizeOk] using h
    simp only [RequestMessage.parse, RequestMessage.enc, List.append_assoc]
    rw [pNat_enc_of_lt 4 1 (by norm_num)]
    simp [transactionsRequest_parse_enc m hm]
  | prevotes m =>
    have hm : m.validators.length < 2 ^ 32 := by
      simpa [RequestMessage.sizeOk, PrevotesRequest.sizeOk] using h
    simp only [RequestMessage.parse, RequestMessage.enc, List.append_assoc]
    rw [pNat_enc_of_lt 4 2 (by norm_num)]
    simp [prevotesRequest_parse_enc m hm]
  | peers m =>
    simp only [RequestMessage.parse, RequestMessage.enc, List.append_assoc]
    rw [pNat_enc_of_lt 4 3 (by norm_num)]
    simp [peersRequest_parse_enc m]
  | block m =>
    simp only [RequestMessage.parse, RequestMessage.enc, List.append_assoc]
    rw [pNat_enc_of_lt 4 4 (by norm_num)]
    simp [blockRequest_parse_enc m]

/-- C2: every `Protocol` variant's encoding starts with a discriminant
unique to that variant (the eight discriminants are pairwise distinct), and
decoding the encoding of a size-wellformed value returns the value. -/
theorem protocol_discriminant_roundtrip :
    (∀ (t : RawTransaction) (c : Connect) (s : Status) (ws : WithoutEncodingStatus)
        (b : BlockResponse) (cm : ConsensusMessage) (r : RequestMessage)
        (tb : TransactionsResponse),
      List.Nodup [(Protocol.transaction t).tag, (Protocol.connect c).tag,
        (Protocol.status s).tag, (Protocol.withoutEncodingStatus ws).tag,
        (Protocol.block b).tag, (Protocol.consensus cm).tag,
        (Protocol.request r).tag, (Protocol.transactionsBatch tb).tag]) ∧
    (∀ v : Protocol, (Protocol.enc v).take 4 = leBytes 4 v.tag) ∧
    (∀ v : Protocol, v.sizeOk = true → Protocol.dec (Protocol.enc v) = some v) := by
  refine ⟨?_, ?_, ?_⟩
  · intro t c s ws b cm r tb
    simp [Protocol.tag]
  · intro v
    cases v <;> exact List.take_left' (leBytes_length 4 _)
  · intro v hv
    cases v with
    | transaction t =>
      simp only [Protocol.enc, Protocol.dec]
      rw [pNat_enc_of_lt 4 0 (by norm_num)]
      rfl
    | connect c =>
      have hc : c.user_agent.val.length < 2 ^ 32 := by
        simpa [Protocol.sizeOk, Connect.sizeOk] using hv
      have hp := connect_parse_enc c hc []
      rw [List.append_nil] at hp
      simp only [Protocol.enc, Protocol.dec]
      rw [pNat_enc_of_lt 4 1 (by norm_num)]
      simp [hp, expectEnd]
    | status s =>
      have hp := status_parse_enc s []
      rw [List.append_nil] at hp
      simp only [Protocol.enc, Protocol.dec]
      rw [pNat_enc_of_lt 4 2 (by norm_num)]
      simp [hp, expectEnd]
    | withoutEncodingStatus s =>
      have hp := wstatus_parse_enc s []
      rw [List.append_nil] at hp
      simp only [Protocol.enc, Protocol.dec]
      rw [pNat_enc_of_lt 4 3 (by norm_num)]
      simp [hp, expectEnd]
    | block b =>
      simp only [Protocol.sizeOk, BlockResponse.sizeOk, Bool.and_eq_true,
        List.all_eq_true, SignedMessage.sizeOk, decide_eq_true_eq] at hv
      obtain ⟨⟨h1, h2⟩, h3⟩ := hv
      have hp := blockResponse_parse_enc b h1 h2 h3 []
      rw [List.append_nil] at hp
      simp only [Protocol.enc, Protocol.dec]
      rw [pNat_enc_of_lt 4 4 (by norm_num)]
      simp [hp, expectEnd]
    | consensus c =>
      have hp := consensus_parse_enc c (by simpa [Protocol.sizeOk] using hv) []
      rw [List.append_nil] at hp
      simp only [Protocol.enc, Protocol.dec]
      rw [pNat_enc_of_lt 4 5 (by norm_num)]
      simp [hp, expectEnd]
    | request r =>
      have hp := request_parse_enc r (by simpa [Protocol.sizeOk] using hv) []
      rw [List.append_nil] at hp
      simp only [Protocol.enc, Protocol.dec]
      rw [pNat_enc_of_lt 4 6 (by norm_num)]
      simp [hp, expectEnd]
    | transactionsBatch t =>
      simp only [Protocol.sizeOk, TransactionsResponse.sizeOk, Bool.and_eq_true,
        List.all_eq_true, SignedMessage.sizeOk, decide_eq_true_eq] at hv
      obtain ⟨h1, h2⟩ := hv
      have hp := transactionsResponse_parse_enc t h1 h2 []
      rw [List.append_nil] at hp
      simp only [Protocol.enc, Protocol.dec]
      rw [pNat_enc_of_lt 4 7 (by norm_num)]
      simp [hp, expectEnd]

/-- A concrete 32-byte hash for witnesses. -/
def exampleHash : Hash := ⟨⟨List.replicate 32 0, by simp⟩⟩

/-- A concrete `Status` message wrapped in `Protocol`, for witnesses. -/
def exampleStatusMsg : Protocol :=
  Protocol.status ⟨⟨77, by norm_num⟩, exampleHash⟩

theorem protocol_discriminant_roundtrip_witness :
    Protocol.sizeOk exampleStatusMsg = true ∧
    Protocol.dec (Protocol.enc exampleStatusMsg) = some exampleStatusMsg :=
  ⟨rfl, protocol_discriminant_roundtrip.2.2 exampleStatusMsg rfl⟩

/-!
Signed envelope.  Modelled from the spec (the `messages` module root and the
`crypto` module are not under `src/`): `sign` frames payload plus author key
and signs the framed bytes; `verify_buffer` rejects buffers below the
minimum frame size and recomputes the signature over the embedded payload
and key.  The cryptographic primitive is an ideal deterministic signature:
for given bytes and key there is exactly one valid signature, and
verification compares against it.
-/

/-- A secret key.  In the ideal model it determines the public key (as an
Ed25519 secret key embeds it). -/
structure SecretKey where
  pub : PublicKey
deriving DecidableEq

/-- Deterministic byte mixing used by the ideal signature. -/
def mixBytes (l : List Byte) : Nat :=
  l.foldl (fun acc b => (acc * 257 + b.val + 1) % (2 ^ 512)) 1

/-- The unique valid signature over `msg` for key `pk` in the ideal crypto
model. -/
def sigOf (msg : List Byte) (pk : PublicKey) : Signature :=
  ⟨⟨leBytes 64 (mixBytes (msg ++ pk.data.val)), leBytes_length 64 _⟩⟩

/-- Decode a 64-byte signature field. -/
def sigFromBytes (l : List Byte) : Option Signature :=
  if h : l.length = 64 then some ⟨⟨l, h⟩⟩ else none

theorem sig_rt (s : Signature) : sigFromBytes (sigIntoBytes s) = some s := by
  obtain ⟨⟨l, hl⟩⟩ := s
  simp [sigFromBytes, sigIntoBytes, hl]

/-- `Message::new` framing: sign the payload bytes together with the author
key; the signature covers the framed bytes. -/
def sign (p : List Byte) (pk : PublicKey) (sk : SecretKey) : SignedMessage :=
  { payload := p, author := pk, signature := sigOf (p ++ pkIntoBytes pk) pk }

/-- `SignedMessage::to_vec`: the canonical transport bytes — the exact
framed bytes the signature covers, followed by the signature. -/
def SignedMessage.toBytes (m : SignedMessage) : List Byte :=
  m.payload ++ (pkIntoBytes m.author ++ sigIntoBytes m.signature)

inductive VerificationError
  | tooShort
  | badSignature
deriving DecidableEq

/-- `SignedMessage::verify_buffer`: reject buffers below the minimum frame
size (32-byte key + 64-byte signature), split off signature and key, and
recompute the signature over the embedded payload and key. -/
def verifyBuffer (l : List Byte) : Except VerificationError SignedMessage :=
  if 96 ≤ l.length then
    let frame := l.take (l.length - 64)
    let sig := l.drop (l.length - 64)
    let payload := frame.take (frame.length - 32)
    let pkBytes := frame.drop (frame.length - 32)
    match pkFromBytes pkBytes, sigFromBytes sig with
    | some pk, some s =>
      if sigOf (payload ++ pkIntoBytes pk) pk = s then
        Except.ok { payload := payload, author := pk, signature := s }
      else Except.error VerificationError.badSignature
    | _, _ => Except.error VerificationError.badSignature
  else Except.error VerificationError.tooShort

theorem verifyBuffer_frame (p pkB sB : List Byte) (pk : PublicKey) (s : Signature)
    (hpkB : pkB = pkIntoBytes pk) (hsB : sB = sigIntoBytes s)
    (hsig : sigOf (p ++ pkB) pk = s) :
    verifyBuffer (p ++ (pkB ++ sB)) = Except.ok ⟨p, pk, s⟩ := by
  have hpk : pkB.length = 32 := by rw [hpkB]; exact pk.data.prop
  have hsg : sB.length = 64 := by rw [hsB]; exact s.data.prop
  have hlen : (p ++ (pkB ++ sB)).length = p.length + 96 := by
    rw [List.length_append, List.length_append, hpk, hsg]
  simp only [verifyBuffer]
  rw [if_pos (by omega)]
  have e1 : (p ++ (pkB ++ sB)).length - 64 = p.length + 32 := by omega
  rw [e1]
  have hassoc : p ++ (pkB ++ sB) = (p ++ pkB) ++ sB := by rw [List.append_assoc]
  have e2 : (p ++ (pkB ++ sB)).drop (p.length + 32) = sB := by
    rw [hassoc]; exact List.drop_left' (by rw [List.length_append, hpk])
  have e3 : (p ++ (pkB ++ sB)).take (p.length + 32) = p ++ pkB := by
    rw [hassoc]; exact List.take_left' (by rw [List.length_append, hpk])
  rw [e2, e3]
  have e4 : (p ++ pkB).length - 32 = p.length := by
    rw [List.length_append, hpk]
    omega
  rw [e4]
  rw [List.take_left p pkB, List.drop_left p pkB]
  have e7 : pkFromBytes pkB = some pk := by rw [hpkB]; exact pk_rt pk
  have e8 : sigFromBytes sB = some s := by rw [hsB]; exact sig_rt s
  rw [e7, e8]
  show (if sigOf (p ++ pkIntoBytes pk) pk = s then
      Except.ok (⟨p, pk, s⟩ : SignedMessage)
    else Except.error VerificationError.badSignature) = Except.ok ⟨p, pk, s⟩
  rw [← hpkB, if_pos hsig]

/-- C3: verifying the canonical bytes of a locally signed message succeeds
and the decoded message carries the payload unchanged. -/
theorem verify_sign_roundtrip (p : List Byte) (pk : PublicKey) (sk : SecretKey) :
    verifyBuffer ((sign p pk sk).toBytes) = Except.ok (sign p pk sk) ∧
    (sign p pk sk).payload = p :=
  ⟨verifyBuffer_frame p (pkIntoBytes pk) (sigIntoBytes (sigOf (p ++ pkIntoBytes pk) pk))
     pk (sigOf (p ++ pkIntoBytes pk) pk) rfl rfl rfl, rfl⟩
